import Mathlib

/-!
Shallow embedding of `shibboleth/backends.py`
(`ShibbolethRemoteUserBackend.authenticate`), the identity-reconciliation
backend, together with proofs about its behaviour.

The backend receives a trusted `remote_user` string and a mutable mapping
`shib_meta` of asserted attributes (string values, plus an optional reserved
`groups` key holding a list of group names).  It reconciles the assertion
against a persistent user/group store:

* empty `remote_user` returns `None` immediately;
* the `groups` entry is popped from `shib_meta` (`del shib_meta['groups']`)
  when present, otherwise the local variable `groups` is bound to `None`;
* `shib_user_params` is the restriction of `shib_meta` to the user schema's
  field names;
* with `create_unknown_user = True` the user is atomically got-or-created by
  username (creation defaults `shib_user_params`, post-creation hook
  `configure_user` on fresh users, per-field compare-and-set plus a single
  `save()` on existing users), then group membership is synchronised against
  the iterated `groups` value, and the attribute-map saver is invoked with
  `(user, shib_meta)`;
* with `create_unknown_user = False` a single `User.objects.get(**shib_user_params)`
  lookup is attempted, `DoesNotExist` being converted to `None`.

The external collaborators (Django ORM store, `configure_user`,
`SHIB_ATTRIBUTE_MAP_SAVER`, `clean_username`) are modelled from the spec's
collaborator contracts: the store keys users by their unique `username` field,
`get_or_create` creates a row whose `username` field is the lookup key and
whose remaining schema fields come from the supplied defaults (missing fields
default to the empty string), `configure_user` is the framework default
(returns the user unchanged) and is logged, the archiver call is logged, and
`clean_username` is the framework default (identity).  Store reads, store
writes (row creation, `save()`, group creation, membership insertion/removal —
duplicate membership inserts and absent-membership removals are no-ops, as in
the ORM) and `save()` calls are counted so that write/no-write claims can be
stated.  Python's `for g in None` raising `TypeError` is modelled by the
`RetVal.raised .typeError` outcome; iterating a string value iterates its
characters, as in Python.
-/

namespace Shib

/-- Value of one attribute in `shib_meta`: a plain string, or (for the
reserved `groups` key) a list of group-name strings. -/
inductive AttrVal where
  | str (s : String)
  | list (l : List String)
deriving DecidableEq, Repr

/-- Association-list lookup (first binding wins), modelling `d[k]` /
`k in d` on a Python dict. -/
def lookupA (k : String) : List (String × AttrVal) → Option AttrVal
  | [] => none
  | (k', v) :: rest => if k' = k then some v else lookupA k rest

/-- Removal of a key, modelling `del d[k]`. -/
def eraseA (k : String) : List (String × AttrVal) → List (String × AttrVal)
  | [] => []
  | (k', v) :: rest => if k' = k then eraseA k rest else (k', v) :: eraseA k rest

/-- In-place replacement of (or insertion of) a field binding, modelling
`setattr(user, k, v)`. -/
def updateA (k : String) (v : AttrVal) : List (String × AttrVal) → List (String × AttrVal)
  | [] => [(k, v)]
  | (k', v') :: rest => if k' = k then (k, v) :: rest else (k', v') :: updateA k v rest

/-- One persisted user row: a primary key plus its field values. -/
structure StoredUser where
  pk : Nat
  fields : List (String × AttrVal)
deriving DecidableEq, Repr

/-- The identity store: user rows, group names, the user-group membership
relation (by user pk and group name), and the next fresh primary key. -/
structure Store where
  users : List StoredUser
  groups : List String
  memberships : List (Nat × String)
  nextPk : Nat
deriving DecidableEq, Repr

/-- Exceptions the reconciliation can raise: `TypeError` from iterating
`None`, and the ORM's `MultipleObjectsReturned` from an ambiguous `get`. -/
inductive RecError where
  | typeError
  | multipleObjectsReturned
deriving DecidableEq, Repr

/-- Result of one `authenticate` call: the returned user's pk, `None`
(absent), or a raised exception. -/
inductive RetVal where
  | user (pk : Nat)
  | absent
  | raised (e : RecError)
deriving DecidableEq, Repr

/-- Full observable outcome of one `authenticate` call: return value, final
store, counts of store reads, store writes and `user.save()` calls, the pks
passed to the post-creation hook `configure_user`, the `(user, shib_meta)`
arguments of attribute-archiver invocations, and the final contents of the
caller-supplied `shib_meta` mapping (which the code mutates in place). -/
structure Outcome where
  ret : RetVal
  store : Store
  reads : Nat
  writes : Nat
  saves : Nat
  configured : List Nat
  archived : List (Nat × List (String × AttrVal))
  finalMeta : List (String × AttrVal)
deriving DecidableEq, Repr

/-- Default `clean_username` of the framework base class: the identity
transform. -/
def clean_username (username : String) : String := username

/-- `shib_user_params = dict([(k, shib_meta[k]) for k in
User._meta.get_all_field_names() if k in shib_meta])`: the restriction of the
(post-`del`) attribute mapping to the schema's field names. -/
def shibUserParams (schema : List String) (meta : List (String × AttrVal)) :
    List (String × AttrVal) :=
  match schema with
  | [] => []
  | k :: rest =>
      match lookupA k meta with
      | some v => (k, v) :: shibUserParams rest meta
      | none => shibUserParams rest meta

/-- Store lookup of a user row by its `username` field (first match). -/
def findByUsername (username : String) : List StoredUser → Option StoredUser
  | [] => none
  | u :: rest =>
      if lookupA "username" u.fields = some (.str username) then some u
      else findByUsername username rest

/-- Field values of a freshly created row: the `username` field is the
get-or-create lookup key; every other schema field takes its value from the
creation defaults, or the empty string when absent. -/
def mkUserFields (schema : List String) (username : String)
    (defaults : List (String × AttrVal)) : List (String × AttrVal) :=
  ("username", .str username) ::
    (schema.filter (fun k => k ≠ "username")).map
      (fun k => (k, (lookupA k defaults).getD (.str "")))

/-- The update loop over `shib_user_params.items()`: compare `getattr(user, k)`
with the asserted value, `setattr` on difference, tracking the `updated`
flag. -/
def applyUpdates : List (String × AttrVal) → StoredUser → Bool → StoredUser × Bool
  | [], u, updated => (u, updated)
  | (k, v) :: rest, u, updated =>
      if lookupA k u.fields = some v then applyUpdates rest u updated
      else applyUpdates rest { u with fields := updateA k v u.fields } true

/-- `user.save()`: persist the in-memory row over the stored row with the
same pk. -/
def saveUser (u : StoredUser) (st : Store) : Store :=
  { st with users := st.users.map (fun w => if w.pk = u.pk then u else w) }

/-- Python iteration over the popped `groups` value: iterating `None` raises
`TypeError` (`none` here); a list yields its elements; a string yields its
characters as one-character strings. -/
def iterGroups : Option AttrVal → Option (List String)
  | none => none
  | some (.list l) => some l
  | some (.str s) => some (s.data.map (fun c => String.mk [c]))

/-- Result of the membership-addition loop: updated store, reads, writes, and
the accumulated `used_groups` list. -/
structure AddOut where
  store : Store
  reads : Nat
  writes : Nat
  used : List String
deriving DecidableEq, Repr

/-- The loop `for g in groups: Group.objects.get_or_create(name=g);
group.user_set.add(user); used_groups.append(g)`.  Each iteration is one
store read; creating a missing group and inserting a missing membership each
count as one write (existing ones are no-ops). -/
def addGroups (pk : Nat) : List String → Store → AddOut
  | [], st => { store := st, reads := 0, writes := 0, used := [] }
  | g :: rest, st =>
      let st2 : Store :=
        { st with
          groups := if g ∈ st.groups then st.groups else st.groups ++ [g],
          memberships :=
            if (pk, g) ∈ st.memberships then st.memberships
            else st.memberships ++ [(pk, g)] }
      let r := addGroups pk rest st2
      { store := r.store, reads := r.reads + 1,
        writes := (if g ∈ st.groups then 0 else 1) +
          (if (pk, g) ∈ st.memberships then 0 else 1) + r.writes,
        used := g :: r.used }

/-- Names of the groups the user currently belongs to
(`user.groups.all()`). -/
def userGroupNames (pk : Nat) (st : Store) : List String :=
  (st.memberships.filter (fun m => m.1 = pk)).map (fun m => m.2)

/-- The loop `for group in user.groups.all().exclude(name__in=used_groups):
group.user_set.remove(user)`: each present membership removal is one
write. -/
def removeGroups (pk : Nat) : List String → Store → Store × Nat
  | [], st => (st, 0)
  | n :: rest, st =>
      if (pk, n) ∈ st.memberships then
        let st1 := { st with memberships := st.memberships.filter (fun m => m ≠ (pk, n)) }
        let r := removeGroups pk rest st1
        (r.1, r.2 + 1)
      else
        removeGroups pk rest st

/-- Tail of the `create_unknown_user` branch after the user row is in hand:
the group-sync loops followed by `SHIB_ATTRIBUTE_MAP_SAVER(user, shib_meta)`.
Iterating `groups = None` raises `TypeError` before any group work or the
archiver call. -/
def groupsAndArchive (pk : Nat) (groupsVal : Option AttrVal)
    (meta : List (String × AttrVal)) (st : Store)
    (reads writes saves : Nat) (configured : List Nat) : Outcome :=
  match iterGroups groupsVal with
  | none =>
      { ret := .raised .typeError, store := st, reads := reads, writes := writes,
        saves := saves, configured := configured, archived := [], finalMeta := meta }
  | some gl =>
      let a := addGroups pk gl st
      let names := userGroupNames pk a.store
      let toRemove := names.filter (fun n => ¬ n ∈ a.used)
      let r := removeGroups pk toRemove a.store
      { ret := .user pk, store := r.1, reads := reads + a.reads + 1,
        writes := writes + a.writes + r.2, saves := saves,
        configured := configured, archived := [(pk, meta)], finalMeta := meta }

/-- Contents of the caller's `shib_meta` dict after the `groups` extraction:
`del shib_meta['groups']` ran exactly when the key was present. -/
def metaOf (shib_meta : List (String × AttrVal)) : List (String × AttrVal) :=
  match lookupA "groups" shib_meta with
  | some _ => eraseA "groups" shib_meta
  | none => shib_meta

/-- Rows matching `User.objects.get(**shib_user_params)`: equality on every
supplied field simultaneously. -/
def usersMatching (params : List (String × AttrVal)) (users : List StoredUser) :
    List StoredUser :=
  users.filter (fun u => params.all (fun kv => lookupA kv.1 u.fields = some kv.2))

/-- `ShibbolethRemoteUserBackend.authenticate(remote_user, shib_meta)`,
parameterised by the user schema's field names
(`User._meta.get_all_field_names()`) and the `create_unknown_user` class
attribute, as a pure function from the initial store to the full outcome. -/
def reconcile (schema : List String) (create_unknown_user : Bool)
    (remote_user : String) (shib_meta : List (String × AttrVal)) (st : Store) :
    Outcome :=
  if remote_user = "" then
    { ret := .absent, store := st, reads := 0, writes := 0, saves := 0,
      configured := [], archived := [], finalMeta := shib_meta }
  else
    let username := clean_username remote_user
    let groupsVal := lookupA "groups" shib_meta
    let meta := metaOf shib_meta
    let params := shibUserParams schema meta
    if create_unknown_user then
      match findByUsername username st.users with
      | some u0 =>
          let p := applyUpdates params u0 false
          let st1 := if p.2 then saveUser p.1 st else st
          groupsAndArchive p.1.pk groupsVal meta st1 1
            (if p.2 then 1 else 0) (if p.2 then 1 else 0) []
      | none =>
          let u : StoredUser := { pk := st.nextPk, fields := mkUserFields schema username params }
          let st1 : Store := { st with users := st.users ++ [u], nextPk := st.nextPk + 1 }
          groupsAndArchive u.pk groupsVal meta st1 1 1 0 [u.pk]
    else
      match usersMatching params st.users with
      | [] =>
          { ret := .absent, store := st, reads := 1, writes := 0, saves := 0,
            configured := [], archived := [], finalMeta := meta }
      | [u] =>
          { ret := .user u.pk, store := st, reads := 1, writes := 0, saves := 0,
            configured := [], archived := [], finalMeta := meta }
      | _ =>
          { ret := .raised .multipleObjectsReturned, store := st, reads := 1,
            writes := 0, saves := 0, configured := [], archived := [], finalMeta := meta }

/-- Well-formed store: primary keys are distinct and below the fresh-key
counter. -/
def Store.WF (st : Store) : Prop :=
  (st.users.map (fun u => u.pk)).Nodup ∧ ∀ u ∈ st.users, u.pk < st.nextPk

instance (st : Store) : Decidable st.WF := by
  unfold Store.WF
  infer_instance

/-- The empty store. -/
def emptyStore : Store := { users := [], groups := [], memberships := [], nextPk := 0 }

/-! ### Association-list lemmas -/

theorem lookupA_eraseA_ne {k k' : String} (h : k ≠ k') (l : List (String × AttrVal)) :
    lookupA k (eraseA k' l) = lookupA k l := by
  induction l with
  | nil => rfl
  | cons p rest ih =>
      obtain ⟨a, v⟩ := p
      by_cases ha : a = k'
      · subst ha
        have h2 : ¬ a = k := fun hh => h hh.symm
        simp [eraseA, lookupA, ih, h2]
      · by_cases hk : a = k
        · simp [eraseA, lookupA, ha, hk, h]
        · simp [eraseA, lookupA, ha, hk, ih]

theorem lookupA_eraseA_self (k : String) (l : List (String × AttrVal)) :
    lookupA k (eraseA k l) = none := by
  induction l with
  | nil => rfl
  | cons p rest ih =>
      obtain ⟨a, v⟩ := p
      by_cases ha : a = k
      · simpa [eraseA, ha] using ih
      · simpa [eraseA, lookupA, ha] using ih

theorem lookupA_updateA_self (k : String) (v : AttrVal) (l : List (String × AttrVal)) :
    lookupA k (updateA k v l) = some v := by
  induction l with
  | nil => simp [updateA, lookupA]
  | cons p rest ih =>
      obtain ⟨a, v'⟩ := p
      by_cases ha : a = k
      · simp [updateA, lookupA, ha]
      · simp [updateA, lookupA, ha, ih]

theorem lookupA_updateA_ne {k k' : String} (h : k' ≠ k) (v : AttrVal)
    (l : List (String × AttrVal)) :
    lookupA k' (updateA k v l) = lookupA k' l := by
  have h2 : ¬ k = k' := fun hh => h hh.symm
  induction l with
  | nil => simp [updateA, lookupA, h2]
  | cons p rest ih =>
      obtain ⟨a, v'⟩ := p
      by_cases ha : a = k
      · subst ha
        simp [updateA, lookupA, h2]
      · by_cases hk : a = k'
        · simp [updateA, lookupA, ha, hk, h]
        · simp [updateA, lookupA, ha, hk, ih]

theorem mem_shibUserParams {schema : List String} {meta : List (String × AttrVal)}
    {k : String} {v : AttrVal} :
    (k, v) ∈ shibUserParams schema meta ↔ k ∈ schema ∧ lookupA k meta = some v := by
  induction schema with
  | nil => simp [shibUserParams]
  | cons a rest ih =>
      cases hv : lookupA a meta with
      | none =>
          rw [shibUserParams, hv, ih]
          constructor
          · rintro ⟨hk, h2⟩
            exact ⟨List.mem_cons_of_mem _ hk, h2⟩
          · rintro ⟨hk, h2⟩
            rcases List.mem_cons.1 hk with rfl | hk'
            · rw [hv] at h2
              cases h2
            · exact ⟨hk', h2⟩
      | some w =>
          rw [shibUserParams, hv]
          simp only [List.mem_cons, ih, Prod.mk.injEq]
          constructor
          · rintro (⟨rfl, rfl⟩ | ⟨hk, h2⟩)
            · exact ⟨Or.inl rfl, hv⟩
            · exact ⟨Or.inr hk, h2⟩
          · rintro ⟨rfl | hk', h2⟩
            · rw [hv] at h2
              exact Or.inl ⟨rfl, (Option.some.inj h2).symm⟩
            · exact Or.inr ⟨hk', h2⟩

theorem lookupA_shibUserParams (schema : List String) (meta : List (String × AttrVal))
    (k : String) :
    lookupA k (shibUserParams schema meta) =
      if k ∈ schema then lookupA k meta else none := by
  induction schema with
  | nil => simp [shibUserParams, lookupA]
  | cons a rest ih =>
      by_cases hk : a = k
      · subst hk
        cases hv : lookupA a meta with
        | none =>
            rw [shibUserParams, hv, ih]
            simp [hv]
        | some v =>
            rw [shibUserParams, hv, lookupA]
            simp [hv]
      · have h2 : ¬ k = a := fun hh => hk hh.symm
        cases hv : lookupA a meta with
        | none =>
            rw [shibUserParams, hv, ih]
            simp [List.mem_cons, h2]
        | some v =>
            rw [shibUserParams, hv, lookupA, if_neg hk, ih]
            simp [List.mem_cons, h2]

theorem shibUserParams_lookup_of_mem {schema : List String}
    {meta : List (String × AttrVal)} {k : String} {v : AttrVal}
    (h : (k, v) ∈ shibUserParams schema meta) :
    lookupA k (shibUserParams schema meta) = some v := by
  obtain ⟨hk, hv⟩ := mem_shibUserParams.1 h
  rw [lookupA_shibUserParams, if_pos hk, hv]

theorem shibUserParams_functional {schema : List String}
    {meta : List (String × AttrVal)} {k : String} {v v' : AttrVal}
    (h : (k, v) ∈ shibUserParams schema meta)
    (h' : (k, v') ∈ shibUserParams schema meta) : v = v' := by
  have h1 := shibUserParams_lookup_of_mem h
  have h2 := shibUserParams_lookup_of_mem h'
  rw [h1] at h2
  exact Option.some.inj h2

/-- A key-functional parameter list: any two bindings of the same key agree. -/
def Functional (l : List (String × AttrVal)) : Prop :=
  ∀ k v v', (k, v) ∈ l → (k, v') ∈ l → v = v'

theorem functional_shibUserParams (schema : List String) (meta : List (String × AttrVal)) :
    Functional (shibUserParams schema meta) :=
  fun _ _ _ h h' => shibUserParams_functional h h'

theorem functional_of_cons {p : String × AttrVal} {l : List (String × AttrVal)}
    (h : Functional (p :: l)) : Functional l :=
  fun k v v' hv hv' => h k v v' (List.mem_cons_of_mem _ hv) (List.mem_cons_of_mem _ hv')

/-! ### Update-loop lemmas -/

theorem applyUpdates_pk (l : List (String × AttrVal)) (u : StoredUser) (b : Bool) :
    (applyUpdates l u b).1.pk = u.pk := by
  induction l generalizing u b with
  | nil => rfl
  | cons p rest ih =>
      obtain ⟨k, v⟩ := p
      rw [applyUpdates]
      by_cases h : lookupA k u.fields = some v
      · rw [if_pos h]
        exact ih u b
      · rw [if_neg h]
        exact ih _ true

theorem applyUpdates_of_all_eq {l : List (String × AttrVal)} {u : StoredUser}
    (h : ∀ kv ∈ l, lookupA kv.1 u.fields = some kv.2) (b : Bool) :
    applyUpdates l u b = (u, b) := by
  induction l with
  | nil => rfl
  | cons p rest ih =>
      obtain ⟨k, v⟩ := p
      rw [applyUpdates, if_pos (h (k, v) (List.mem_cons_self _ _))]
      exact ih (fun kv hkv => h kv (List.mem_cons_of_mem _ hkv))

theorem applyUpdates_snd_true (l : List (String × AttrVal)) (u : StoredUser) :
    (applyUpdates l u true).2 = true := by
  induction l generalizing u with
  | nil => rfl
  | cons p rest ih =>
      obtain ⟨k, v⟩ := p
      rw [applyUpdates]
      by_cases h : lookupA k u.fields = some v
      · rw [if_pos h]
        exact ih u
      · rw [if_neg h]
        exact ih _

theorem applyUpdates_snd_false {l : List (String × AttrVal)} {u : StoredUser}
    (h : (applyUpdates l u false).2 = false) :
    ∀ kv ∈ l, lookupA kv.1 u.fields = some kv.2 := by
  induction l generalizing u with
  | nil => intro kv hkv; cases hkv
  | cons p rest ih =>
      obtain ⟨k, v⟩ := p
      rw [applyUpdates] at h
      by_cases hk : lookupA k u.fields = some v
      · rw [if_pos hk] at h
        intro kv hkv
        rcases List.mem_cons.1 hkv with rfl | hkv'
        · exact hk
        · exact ih h kv hkv'
      · rw [if_neg hk] at h
        rw [applyUpdates_snd_true] at h
        cases h

theorem applyUpdates_fields_frame {l : List (String × AttrVal)} {k : String}
    (h : ∀ kv ∈ l, kv.1 ≠ k) (u : StoredUser) (b : Bool) :
    lookupA k (applyUpdates l u b).1.fields = lookupA k u.fields := by
  induction l generalizing u b with
  | nil => rfl
  | cons p rest ih =>
      obtain ⟨a, v⟩ := p
      rw [applyUpdates]
      by_cases ha : lookupA a u.fields = some v
      · rw [if_pos ha]
        exact ih (fun kv hkv => h kv (List.mem_cons_of_mem _ hkv)) u b
      · rw [if_neg ha]
        rw [ih (fun kv hkv => h kv (List.mem_cons_of_mem _ hkv)) _ true]
        exact lookupA_updateA_ne (Ne.symm (h (a, v) (List.mem_cons_self _ _))) v u.fields

theorem applyUpdates_fields_of_mem {l : List (String × AttrVal)}
    (hf : Functional l) (u : StoredUser) (b : Bool) :
    ∀ kv ∈ l, lookupA kv.1 (applyUpdates l u b).1.fields = some kv.2 := by
  induction l generalizing u b with
  | nil => intro kv hkv; cases hkv
  | cons p rest ih =>
      obtain ⟨a, v⟩ := p
      intro kv hkv
      rcases List.mem_cons.1 hkv with heq | hkv'
      · obtain ⟨rfl, rfl⟩ : kv.1 = a ∧ kv.2 = v := by
          constructor <;> exact congrArg _ heq
        rw [applyUpdates]
        by_cases ha : lookupA kv.1 u.fields = some kv.2
        · rw [if_pos ha]
          by_cases hmem : ∃ w, (kv.1, w) ∈ rest
          · obtain ⟨w, hw⟩ := hmem
            have hvw : kv.2 = w :=
              hf kv.1 kv.2 w (List.mem_cons_self _ _) (List.mem_cons_of_mem _ hw)
            subst hvw
            exact ih (functional_of_cons hf) u b (kv.1, kv.2) hw
          · have hne : ∀ kv' ∈ rest, kv'.1 ≠ kv.1 := by
              intro kv' hkv' heq
              exact hmem ⟨kv'.2, heq ▸ hkv'⟩
            rw [applyUpdates_fields_frame hne u b]
            exact ha
        · rw [if_neg ha]
          by_cases hmem : ∃ w, (kv.1, w) ∈ rest
          · obtain ⟨w, hw⟩ := hmem
            have hvw : kv.2 = w :=
              hf kv.1 kv.2 w (List.mem_cons_self _ _) (List.mem_cons_of_mem _ hw)
            subst hvw
            exact ih (functional_of_cons hf) _ true (kv.1, kv.2) hw
          · have hne : ∀ kv' ∈ rest, kv'.1 ≠ kv.1 := by
              intro kv' hkv' heq
              exact hmem ⟨kv'.2, heq ▸ hkv'⟩
            rw [applyUpdates_fields_frame hne _ true]
            exact lookupA_updateA_self kv.1 kv.2 u.fields
      · rw [applyUpdates]
        by_cases ha : lookupA a u.fields = some v
        · rw [if_pos ha]
          exact ih (functional_of_cons hf) u b kv hkv'
        · rw [if_neg ha]
          exact ih (functional_of_cons hf) _ true kv hkv'

/-! ### Group-synchronisation lemmas -/

theorem addGroups_users (pk : Nat) (gs : List String) (st : Store) :
    (addGroups pk gs st).store.users = st.users := by
  induction gs generalizing st with
  | nil => rfl
  | cons g rest ih =>
      rw [addGroups]
      exact ih _

theorem addGroups_nextPk (pk : Nat) (gs : List String) (st : Store) :
    (addGroups pk gs st).store.nextPk = st.nextPk := by
  induction gs generalizing st with
  | nil => rfl
  | cons g rest ih =>
      rw [addGroups]
      exact ih _

theorem addGroups_used (pk : Nat) (gs : List String) (st : Store) :
    (addGroups pk gs st).used = gs := by
  induction gs generalizing st with
  | nil => rfl
  | cons g rest ih =>
      rw [addGroups]
      simp only []
      rw [ih]

theorem mem_addGroups_memberships (pk : Nat) (gs : List String) (st : Store)
    (p : Nat) (g : String) :
    (p, g) ∈ (addGroups pk gs st).store.memberships ↔
      (p, g) ∈ st.memberships ∨ (p = pk ∧ g ∈ gs) := by
  induction gs generalizing st with
  | nil => simp [addGroups]
  | cons a rest ih =>
      rw [addGroups]
      simp only []
      rw [ih]
      by_cases h2 : (pk, a) ∈ st.memberships
      · rw [if_pos h2]
        constructor
        · rintro (hm | ⟨rfl, hg⟩)
          · exact Or.inl hm
          · exact Or.inr ⟨rfl, List.mem_cons_of_mem _ hg⟩
        · rintro (hm | ⟨rfl, hg⟩)
          · exact Or.inl hm
          · rcases List.mem_cons.1 hg with rfl | hg'
            · exact Or.inl h2
            · exact Or.inr ⟨rfl, hg'⟩
      · rw [if_neg h2]
        simp only [List.mem_append, List.mem_singleton, Prod.mk.injEq]
        constructor
        · rintro ((hm | ⟨rfl, rfl⟩) | ⟨rfl, hg⟩)
          · exact Or.inl hm
          · exact Or.inr ⟨rfl, List.mem_cons_self _ _⟩
          · exact Or.inr ⟨rfl, List.mem_cons_of_mem _ hg⟩
        · rintro (hm | ⟨rfl, hg⟩)
          · exact Or.inl (Or.inl hm)
          · rcases List.mem_cons.1 hg with rfl | hg'
            · exact Or.inl (Or.inr ⟨rfl, rfl⟩)
            · exact Or.inr ⟨rfl, hg'⟩

theorem mem_addGroups_groups (pk : Nat) (gs : List String) (st : Store) (g : String) :
    g ∈ (addGroups pk gs st).store.groups ↔ g ∈ st.groups ∨ g ∈ gs := by
  induction gs generalizing st with
  | nil => simp [addGroups]
  | cons a rest ih =>
      rw [addGroups]
      simp only []
      rw [ih]
      by_cases h1 : a ∈ st.groups
      · rw [if_pos h1]
        constructor
        · rintro (hg | hg)
          · exact Or.inl hg
          · exact Or.inr (List.mem_cons_of_mem _ hg)
        · rintro (hg | hg)
          · exact Or.inl hg
          · rcases List.mem_cons.1 hg with rfl | hg'
            · exact Or.inl h1
            · exact Or.inr hg'
      · rw [if_neg h1]
        simp only [List.mem_append, List.mem_singleton]
        constructor
        · rintro ((hg | rfl) | hg)
          · exact Or.inl hg
          · exact Or.inr (List.mem_cons_self _ _)
          · exact Or.inr (List.mem_cons_of_mem _ hg)
        · rintro (hg | hg)
          · exact Or.inl (Or.inl hg)
          · rcases List.mem_cons.1 hg with rfl | hg'
            · exact Or.inl (Or.inr rfl)
            · exact Or.inr hg'

theorem addGroups_noop {pk : Nat} {gs : List String} {st : Store}
    (h : ∀ g ∈ gs, g ∈ st.groups ∧ (pk, g) ∈ st.memberships) :
    addGroups pk gs st =
      { store := st, reads := gs.length, writes := 0, used := gs } := by
  induction gs with
  | nil => rfl
  | cons g rest ih =>
      obtain ⟨h1, h2⟩ := h g (List.mem_cons_self _ _)
      rw [addGroups]
      simp only [if_pos h1, if_pos h2]
      rw [ih (fun g' hg' => h g' (List.mem_cons_of_mem _ hg'))]
      rfl

theorem removeGroups_users (pk : Nat) (R : List String) (st : Store) :
    (removeGroups pk R st).1.users = st.users := by
  induction R generalizing st with
  | nil => rfl
  | cons n rest ih =>
      rw [removeGroups]
      by_cases h : (pk, n) ∈ st.memberships
      · rw [if_pos h]
        exact ih _
      · rw [if_neg h]
        exact ih _

theorem removeGroups_groups (pk : Nat) (R : List String) (st : Store) :
    (removeGroups pk R st).1.groups = st.groups := by
  induction R generalizing st with
  | nil => rfl
  | cons n rest ih =>
      rw [removeGroups]
      by_cases h : (pk, n) ∈ st.memberships
      · rw [if_pos h]
        exact ih _
      · rw [if_neg h]
        exact ih _

theorem removeGroups_nextPk (pk : Nat) (R : List String) (st : Store) :
    (removeGroups pk R st).1.nextPk = st.nextPk := by
  induction R generalizing st with
  | nil => rfl
  | cons n rest ih =>
      rw [removeGroups]
      by_cases h : (pk, n) ∈ st.memberships
      · rw [if_pos h]
        exact ih _
      · rw [if_neg h]
        exact ih _

theorem mem_removeGroups (pk : Nat) (R : List String) (st : Store)
    (p : Nat) (g : String) :
    (p, g) ∈ (removeGroups pk R st).1.memberships ↔
      (p, g) ∈ st.memberships ∧ ¬ (p = pk ∧ g ∈ R) := by
  induction R generalizing st with
  | nil => simp [removeGroups]
  | cons n rest ih =>
      rw [removeGroups]
      by_cases h : (pk, n) ∈ st.memberships
      · rw [if_pos h]
        simp only []
        rw [ih]
        simp only [List.mem_filter, decide_eq_true_eq]
        constructor
        · rintro ⟨⟨hm, hne⟩, hnr⟩
          refine ⟨hm, ?_⟩
          rintro ⟨rfl, hg⟩
          rcases List.mem_cons.1 hg with rfl | hg'
          · exact hne rfl
          · exact hnr ⟨rfl, hg'⟩
        · rintro ⟨hm, hnr⟩
          refine ⟨⟨hm, ?_⟩, ?_⟩
          · intro heq
            have hp : p = pk := congrArg Prod.fst heq
            have hg : g = n := congrArg Prod.snd heq
            subst hg
            exact hnr ⟨hp, List.mem_cons_self _ _⟩
          · rintro ⟨rfl, hg⟩
            exact hnr ⟨rfl, List.mem_cons_of_mem _ hg⟩
      · rw [if_neg h]
        rw [ih]
        constructor
        · rintro ⟨hm, hnr⟩
          refine ⟨hm, ?_⟩
          rintro ⟨rfl, hg⟩
          rcases List.mem_cons.1 hg with rfl | hg'
          · exact h hm
          · exact hnr ⟨rfl, hg'⟩
        · rintro ⟨hm, hnr⟩
          refine ⟨hm, ?_⟩
          rintro ⟨rfl, hg⟩
          exact hnr ⟨rfl, List.mem_cons_of_mem _ hg⟩

theorem mem_userGroupNames (pk : Nat) (st : Store) (g : String) :
    g ∈ userGroupNames pk st ↔ (pk, g) ∈ st.memberships := by
  simp only [userGroupNames, List.mem_map, List.mem_filter, decide_eq_true_eq]
  constructor
  · rintro ⟨⟨p, g'⟩, ⟨hm, rfl⟩, rfl⟩
    exact hm
  · intro hm
    exact ⟨(pk, g), ⟨hm, rfl⟩, rfl⟩

/-! ### Lemmas about the post-user phase (`groupsAndArchive`) -/

theorem groupsAndArchive_users (pk : Nat) (gv : Option AttrVal)
    (meta : List (String × AttrVal)) (st : Store) (r w s : Nat) (c : List Nat) :
    (groupsAndArchive pk gv meta st r w s c).store.users = st.users := by
  cases hgv : iterGroups gv with
  | none => rw [groupsAndArchive, hgv]
  | some gl =>
      rw [groupsAndArchive, hgv]
      simp only []
      rw [removeGroups_users, addGroups_users]

theorem groupsAndArchive_nextPk (pk : Nat) (gv : Option AttrVal)
    (meta : List (String × AttrVal)) (st : Store) (r w s : Nat) (c : List Nat) :
    (groupsAndArchive pk gv meta st r w s c).store.nextPk = st.nextPk := by
  cases hgv : iterGroups gv with
  | none => rw [groupsAndArchive, hgv]
  | some gl =>
      rw [groupsAndArchive, hgv]
      simp only []
      rw [removeGroups_nextPk, addGroups_nextPk]

theorem groupsAndArchive_saves (pk : Nat) (gv : Option AttrVal)
    (meta : List (String × AttrVal)) (st : Store) (r w s : Nat) (c : List Nat) :
    (groupsAndArchive pk gv meta st r w s c).saves = s := by
  cases hgv : iterGroups gv with
  | none => rw [groupsAndArchive, hgv]
  | some gl => rw [groupsAndArchive, hgv]

theorem groupsAndArchive_finalMeta (pk : Nat) (gv : Option AttrVal)
    (meta : List (String × AttrVal)) (st : Store) (r w s : Nat) (c : List Nat) :
    (groupsAndArchive pk gv meta st r w s c).finalMeta = meta := by
  cases hgv : iterGroups gv with
  | none => rw [groupsAndArchive, hgv]
  | some gl => rw [groupsAndArchive, hgv]

theorem groupsAndArchive_configured (pk : Nat) (gv : Option AttrVal)
    (meta : List (String × AttrVal)) (st : Store) (r w s : Nat) (c : List Nat) :
    (groupsAndArchive pk gv meta st r w s c).configured = c := by
  cases hgv : iterGroups gv with
  | none => rw [groupsAndArchive, hgv]
  | some gl => rw [groupsAndArchive, hgv]

theorem groupsAndArchive_ret_ok {gv : Option AttrVal} {gl : List String}
    (h : iterGroups gv = some gl) (pk : Nat) (meta : List (String × AttrVal))
    (st : Store) (r w s : Nat) (c : List Nat) :
    (groupsAndArchive pk gv meta st r w s c).ret = .user pk := by
  rw [groupsAndArchive, h]

theorem groupsAndArchive_archived_ok {gv : Option AttrVal} {gl : List String}
    (h : iterGroups gv = some gl) (pk : Nat) (meta : List (String × AttrVal))
    (st : Store) (r w s : Nat) (c : List Nat) :
    (groupsAndArchive pk gv meta st r w s c).archived = [(pk, meta)] := by
  rw [groupsAndArchive, h]

theorem groupsAndArchive_raises {gv : Option AttrVal}
    (h : iterGroups gv = none) (pk : Nat) (meta : List (String × AttrVal))
    (st : Store) (r w s : Nat) (c : List Nat) :
    groupsAndArchive pk gv meta st r w s c =
      { ret := .raised .typeError, store := st, reads := r, writes := w, saves := s,
        configured := c, archived := [], finalMeta := meta } := by
  rw [groupsAndArchive, h]

/-- After a completed group sync, the synchronised user belongs to a group
exactly when its name occurs in the iterated `groups` value. -/
theorem groupsAndArchive_memberships {gv : Option AttrVal} {gl : List String}
    (h : iterGroups gv = some gl) (pk : Nat) (meta : List (String × AttrVal))
    (st : Store) (r w s : Nat) (c : List Nat) (g : String) :
    ((pk, g) ∈ (groupsAndArchive pk gv meta st r w s c).store.memberships ↔ g ∈ gl) := by
  rw [groupsAndArchive, h]
  simp only []
  rw [mem_removeGroups, mem_addGroups_memberships]
  constructor
  · rintro ⟨hm | ⟨-, hg⟩, hnr⟩
    · by_contra hng
      refine hnr ⟨rfl, ?_⟩
      simp only [List.mem_filter, decide_eq_true_eq, addGroups_used]
      refine ⟨(mem_userGroupNames _ _ _).2 ?_, hng⟩
      rw [mem_addGroups_memberships]
      exact Or.inl hm
    · exact hg
  · intro hg
    refine ⟨Or.inr ⟨rfl, hg⟩, ?_⟩
    rintro ⟨-, hr⟩
    simp only [List.mem_filter, decide_eq_true_eq, addGroups_used] at hr
    exact hr.2 hg

/-- A group sync whose asserted groups and memberships are already in place
is a complete no-op on the store and performs no writes. -/
theorem groupsAndArchive_noop {gv : Option AttrVal} {gl : List String}
    (h : iterGroups gv = some gl) {pk : Nat} {st : Store}
    (hin : ∀ g ∈ gl, g ∈ st.groups ∧ (pk, g) ∈ st.memberships)
    (hsub : ∀ g, (pk, g) ∈ st.memberships → g ∈ gl)
    (meta : List (String × AttrVal)) (r w s : Nat) (c : List Nat) :
    groupsAndArchive pk gv meta st r w s c =
      { ret := .user pk, store := st, reads := r + gl.length + 1, writes := w,
        saves := s, configured := c, archived := [(pk, meta)], finalMeta := meta } := by
  rw [groupsAndArchive, h]
  simp only []
  rw [addGroups_noop hin]
  have hempty : (userGroupNames pk st).filter (fun n => ¬ n ∈ gl) = [] := by
    rw [List.filter_eq_nil_iff]
    intro a ha
    simp only [decide_eq_true_eq, Decidable.not_not]
    exact hsub a ((mem_userGroupNames _ _ _).1 ha)
  simp only [hempty]
  rw [removeGroups]
  simp only []
  congr 1

/-! ### Lemmas about the user lookup -/

theorem findByUsername_mem {un : String} {l : List StoredUser} {u : StoredUser}
    (h : findByUsername un l = some u) :
    u ∈ l ∧ lookupA "username" u.fields = some (.str un) := by
  induction l with
  | nil => cases h
  | cons w rest ih =>
      rw [findByUsername] at h
      by_cases hw : lookupA "username" w.fields = some (.str un)
      · rw [if_pos hw] at h
        obtain rfl := Option.some.inj h
        exact ⟨List.mem_cons_self _ _, hw⟩
      · rw [if_neg hw] at h
        obtain ⟨hm, hl⟩ := ih h
        exact ⟨List.mem_cons_of_mem _ hm, hl⟩

theorem findByUsername_none {un : String} {l : List StoredUser}
    (h : findByUsername un l = none) :
    ∀ u ∈ l, lookupA "username" u.fields ≠ some (.str un) := by
  induction l with
  | nil => intro u hu; cases hu
  | cons w rest ih =>
      rw [findByUsername] at h
      by_cases hw : lookupA "username" w.fields = some (.str un)
      · rw [if_pos hw] at h
        cases h
      · rw [if_neg hw] at h
        intro u hu
        rcases List.mem_cons.1 hu with rfl | hu'
        · exact hw
        · exact ih h u hu'

theorem findByUsername_append_none {un : String} {l : List StoredUser}
    (h : findByUsername un l = none) (u : StoredUser)
    (hu : lookupA "username" u.fields = some (.str un)) :
    findByUsername un (l ++ [u]) = some u := by
  induction l with
  | nil => simp [findByUsername, hu]
  | cons w rest ih =>
      rw [findByUsername] at h
      by_cases hw : lookupA "username" w.fields = some (.str un)
      · rw [if_pos hw] at h
        cases h
      · rw [if_neg hw] at h
        rw [List.cons_append, findByUsername, if_neg hw]
        exact ih h

theorem nodup_pk_eq {l : List StoredUser} (hn : (l.map (fun u => u.pk)).Nodup)
    {u w : StoredUser} (hu : u ∈ l) (hw : w ∈ l) (hpk : u.pk = w.pk) : u = w := by
  induction l with
  | nil => cases hu
  | cons a rest ih =>
      rw [List.map_cons, List.nodup_cons] at hn
      rcases List.mem_cons.1 hu with rfl | hu'
      · rcases List.mem_cons.1 hw with rfl | hw'
        · rfl
        · exact absurd (hpk ▸ List.mem_map_of_mem (fun x => x.pk) hw') hn.1
      · rcases List.mem_cons.1 hw with rfl | hw'
        · exact absurd (hpk ▸ List.mem_map_of_mem (fun x => x.pk) hu') hn.1
        · exact ih hn.2 hu' hw'

theorem findByUsername_saveUser {un : String} {l : List StoredUser}
    {u0 u1 : StoredUser} (hn : (l.map (fun u => u.pk)).Nodup)
    (hf : findByUsername un l = some u0) (hpk : u1.pk = u0.pk)
    (hu1 : lookupA "username" u1.fields = some (.str un)) :
    findByUsername un (l.map (fun w => if w.pk = u1.pk then u1 else w)) = some u1 := by
  induction l with
  | nil => cases hf
  | cons a rest ih =>
      rw [List.map_cons, List.nodup_cons] at hn
      rw [findByUsername] at hf
      by_cases ha : lookupA "username" a.fields = some (.str un)
      · rw [if_pos ha] at hf
        obtain rfl := Option.some.inj hf
        rw [List.map_cons, if_pos hpk.symm, findByUsername, if_pos hu1]
      · rw [if_neg ha] at hf
        have hmem : u0 ∈ rest := (findByUsername_mem hf).1
        have hane : ¬ a.pk = u1.pk := by
          intro heq
          exact hn.1 (heq ▸ hpk ▸ List.mem_map_of_mem (fun x => x.pk) hmem)
        rw [List.map_cons, if_neg hane, findByUsername, if_neg ha]
        exact ih hn.2 hf

/-! ### Auxiliary facts about the attribute split and creation defaults -/

theorem eraseA_of_lookupA_none {k : String} {l : List (String × AttrVal)}
    (h : lookupA k l = none) : eraseA k l = l := by
  induction l with
  | nil => rfl
  | cons p rest ih =>
      obtain ⟨a, v⟩ := p
      rw [lookupA] at h
      by_cases ha : a = k
      · rw [if_pos ha] at h
        cases h
      · rw [if_neg ha] at h
        rw [eraseA, if_neg ha, ih h]

theorem metaOf_eq_eraseA (shib_meta : List (String × AttrVal)) :
    metaOf shib_meta = eraseA "groups" shib_meta := by
  rw [metaOf]
  cases h : lookupA "groups" shib_meta with
  | some v => rfl
  | none => rw [eraseA_of_lookupA_none h]

theorem lookupA_metaOf_ne {k : String} (hk : k ≠ "groups")
    (shib_meta : List (String × AttrVal)) :
    lookupA k (metaOf shib_meta) = lookupA k shib_meta := by
  rw [metaOf_eq_eraseA]
  exact lookupA_eraseA_ne hk _

theorem iterGroups_some (v : AttrVal) : ∃ gl, iterGroups (some v) = some gl := by
  cases v with
  | str s => exact ⟨_, rfl⟩
  | list l => exact ⟨_, rfl⟩

theorem lookupA_map_keys (f : String → AttrVal) (l : List String) (k : String) :
    lookupA k (l.map (fun a => (a, f a))) = if k ∈ l then some (f k) else none := by
  induction l with
  | nil => simp [lookupA]
  | cons a rest ih =>
      rw [List.map_cons, lookupA]
      by_cases ha : a = k
      · subst ha
        simp [List.mem_cons]
      · rw [if_neg ha, ih]
        have h2 : ¬ k = a := fun hh => ha hh.symm
        simp [List.mem_cons, h2]

theorem lookupA_mkUserFields_username (schema : List String) (un : String)
    (defaults : List (String × AttrVal)) :
    lookupA "username" (mkUserFields schema un defaults) = some (.str un) := by
  rw [mkUserFields, lookupA, if_pos rfl]

theorem lookupA_mkUserFields_ne {k : String} (hk : ¬ k = "username")
    {schema : List String} (hs : k ∈ schema) (un : String)
    (defaults : List (String × AttrVal)) :
    lookupA k (mkUserFields schema un defaults) =
      some ((lookupA k defaults).getD (.str "")) := by
  rw [mkUserFields, lookupA, if_neg (fun hh => hk hh.symm)]
  rw [lookupA_map_keys (fun a => (lookupA a defaults).getD (.str ""))]
  rw [if_pos]
  rw [List.mem_filter]
  exact ⟨hs, by simpa using hk⟩

/-- Creation defaults land on the created row: every recognised parameter is
stored, the `username` parameter being constrained to the lookup key. -/
theorem mkUserFields_lookup_of_mem {schema : List String}
    {meta : List (String × AttrVal)} {un : String}
    (hv : ∀ v, ("username", v) ∈ shibUserParams schema meta → v = .str un) :
    ∀ kv ∈ shibUserParams schema meta,
      lookupA kv.1 (mkUserFields schema un (shibUserParams schema meta)) = some kv.2 := by
  rintro ⟨k, v⟩ hkv
  by_cases hk : k = "username"
  · subst hk
    rw [lookupA_mkUserFields_username, hv v hkv]
  · rw [lookupA_mkUserFields_ne hk (mem_shibUserParams.1 hkv).1 un]
    rw [shibUserParams_lookup_of_mem hkv]
    rfl

/-- When every `username` parameter equals the canonical username, the update
loop preserves the row's `username` field. -/
theorem applyUpdates_username_preserved {params : List (String × AttrVal)}
    (hf : Functional params) {un : String}
    (hv : ∀ v, ("username", v) ∈ params → v = .str un)
    {u0 : StoredUser} (hu0 : lookupA "username" u0.fields = some (.str un)) (b : Bool) :
    lookupA "username" (applyUpdates params u0 b).1.fields = some (.str un) := by
  by_cases hmem : ∃ v, ("username", v) ∈ params
  · obtain ⟨v, hvmem⟩ := hmem
    have hveq := hv v hvmem
    subst hveq
    exact applyUpdates_fields_of_mem hf u0 b ("username", _) hvmem
  · have hne : ∀ kv ∈ params, kv.1 ≠ "username" := by
      intro kv hkv heq
      exact hmem ⟨kv.2, heq ▸ hkv⟩
    rw [applyUpdates_fields_frame hne]
    exact hu0

/-- The user row found before the conditional `save()` is found again (as its
updated self) afterwards. -/
theorem findByUsername_after_update {st : Store} {un : String} {u0 : StoredUser}
    (hn : (st.users.map (fun u => u.pk)).Nodup)
    (hfind : findByUsername un st.users = some u0)
    {params : List (String × AttrVal)}
    (hu1 : lookupA "username" (applyUpdates params u0 false).1.fields = some (.str un)) :
    findByUsername un
      (if (applyUpdates params u0 false).2
        then saveUser (applyUpdates params u0 false).1 st else st).users =
      some (applyUpdates params u0 false).1 := by
  cases h2 : (applyUpdates params u0 false).2 with
  | true =>
      rw [if_pos rfl]
      exact findByUsername_saveUser hn hfind (applyUpdates_pk params u0 false) hu1
  | false =>
      rw [if_neg (by decide)]
      have hall := applyUpdates_snd_false h2
      rw [applyUpdates_of_all_eq hall false]
      exact hfind

theorem groupsAndArchive_groups_sup {gv : Option AttrVal} {gl : List String}
    (h : iterGroups gv = some gl) (pk : Nat) (meta : List (String × AttrVal))
    (st : Store) (r w s : Nat) (c : List Nat) :
    ∀ g ∈ gl, g ∈ (groupsAndArchive pk gv meta st r w s c).store.groups := by
  intro g hg
  rw [groupsAndArchive, h]
  simp only []
  rw [removeGroups_groups, mem_addGroups_groups]
  exact Or.inr hg

/-! ### One-step unfolding equations for `reconcile` -/

theorem reconcile_empty (schema : List String) (cuu : Bool)
    (shib_meta : List (String × AttrVal)) (st : Store) :
    reconcile schema cuu "" shib_meta st =
      { ret := .absent, store := st, reads := 0, writes := 0, saves := 0,
        configured := [], archived := [], finalMeta := shib_meta } := by
  rw [reconcile, if_pos rfl]

theorem reconcile_true_found {schema : List String} {remote_user : String}
    (hr : ¬ remote_user = "") {shib_meta : List (String × AttrVal)} {st : Store}
    {u0 : StoredUser}
    (hfind : findByUsername (clean_username remote_user) st.users = some u0) :
    reconcile schema true remote_user shib_meta st =
      groupsAndArchive
        (applyUpdates (shibUserParams schema (metaOf shib_meta)) u0 false).1.pk
        (lookupA "groups" shib_meta) (metaOf shib_meta)
        (if (applyUpdates (shibUserParams schema (metaOf shib_meta)) u0 false).2
          then saveUser (applyUpdates (shibUserParams schema (metaOf shib_meta)) u0 false).1 st
          else st)
        1
        (if (applyUpdates (shibUserParams schema (metaOf shib_meta)) u0 false).2 then 1 else 0)
        (if (applyUpdates (shibUserParams schema (metaOf shib_meta)) u0 false).2 then 1 else 0)
        [] := by
  rw [reconcile, if_neg hr]
  simp only [hfind]
  rfl

theorem reconcile_true_created {schema : List String} {remote_user : String}
    (hr : ¬ remote_user = "") {shib_meta : List (String × AttrVal)} {st : Store}
    (hfind : findByUsername (clean_username remote_user) st.users = none) :
    reconcile schema true remote_user shib_meta st =
      groupsAndArchive st.nextPk (lookupA "groups" shib_meta) (metaOf shib_meta)
        { st with
          users := st.users ++
            [{ pk := st.nextPk,
               fields := mkUserFields schema (clean_username remote_user)
                 (shibUserParams schema (metaOf shib_meta)) }],
          nextPk := st.nextPk + 1 }
        1 1 0 [st.nextPk] := by
  rw [reconcile, if_neg hr]
  simp only [hfind]
  rfl

theorem reconcile_false_eq {schema : List String} {remote_user : String}
    (hr : ¬ remote_user = "") (shib_meta : List (String × AttrVal)) (st : Store) :
    reconcile schema false remote_user shib_meta st =
      match usersMatching (shibUserParams schema (metaOf shib_meta)) st.users with
      | [] =>
          { ret := .absent, store := st, reads := 1, writes := 0, saves := 0,
            configured := [], archived := [], finalMeta := metaOf shib_meta }
      | [u] =>
          { ret := .user u.pk, store := st, reads := 1, writes := 0, saves := 0,
            configured := [], archived := [], finalMeta := metaOf shib_meta }
      | _ =>
          { ret := .raised .multipleObjectsReturned, store := st, reads := 1,
            writes := 0, saves := 0, configured := [], archived := [],
            finalMeta := metaOf shib_meta } := by
  rw [reconcile, if_neg hr]
  rfl

/-! ### Core characterisations used by several claims -/

/-- With `create_unknown_user` on and a list-valued `groups` entry, the call
returns a user whose final membership set is exactly the asserted list. -/
theorem reconcile_true_groups_mem {schema : List String} {remote_user : String}
    {shib_meta : List (String × AttrVal)} {st : Store} {L : List String}
    (hr : ¬ remote_user = "")
    (hg : lookupA "groups" shib_meta = some (.list L)) :
    ∃ pk, (reconcile schema true remote_user shib_meta st).ret = .user pk ∧
      ∀ g, ((pk, g) ∈ (reconcile schema true remote_user shib_meta st).store.memberships ↔
        g ∈ L) := by
  have hiter : iterGroups (lookupA "groups" shib_meta) = some L := by
    rw [hg]
    rfl
  cases hfind : findByUsername (clean_username remote_user) st.users with
  | some u0 =>
      rw [reconcile_true_found hr hfind]
      exact ⟨_, groupsAndArchive_ret_ok hiter _ _ _ _ _ _ _,
        fun g => groupsAndArchive_memberships hiter _ _ _ _ _ _ _ g⟩
  | none =>
      rw [reconcile_true_created hr hfind]
      exact ⟨st.nextPk, groupsAndArchive_ret_ok hiter _ _ _ _ _ _ _,
        fun g => groupsAndArchive_memberships hiter _ _ _ _ _ _ _ g⟩

/-- After a first call, the reconciled user is found again by username, its
fields agree with the parameters, and the group state matches the iterated
`groups` value (or the call raised `TypeError`). -/
theorem reconcile_true_after {schema : List String} {remote_user : String}
    {shib_meta : List (String × AttrVal)} {st : Store}
    (hr : ¬ remote_user = "")
    (hn : (st.users.map (fun u => u.pk)).Nodup)
    (hun : ∀ v, ("username", v) ∈ shibUserParams schema (metaOf shib_meta) →
        v = AttrVal.str (clean_username remote_user)) :
    ∃ u1 : StoredUser,
      findByUsername (clean_username remote_user)
          (reconcile schema true remote_user shib_meta st).store.users = some u1 ∧
      (∀ kv ∈ shibUserParams schema (metaOf shib_meta),
          lookupA kv.1 u1.fields = some kv.2) ∧
      (∀ gl, iterGroups (lookupA "groups" shib_meta) = some gl →
          (reconcile schema true remote_user shib_meta st).ret = .user u1.pk ∧
          (∀ g, ((u1.pk, g) ∈
              (reconcile schema true remote_user shib_meta st).store.memberships ↔ g ∈ gl)) ∧
          (∀ g ∈ gl, g ∈ (reconcile schema true remote_user shib_meta st).store.groups)) ∧
      (iterGroups (lookupA "groups" shib_meta) = none →
          (reconcile schema true remote_user shib_meta st).ret = .raised .typeError) := by
  have hf := functional_shibUserParams schema (metaOf shib_meta)
  cases hfind : findByUsername (clean_username remote_user) st.users with
  | some u0 =>
      have hu0un := (findByUsername_mem hfind).2
      have hu1 := applyUpdates_username_preserved hf hun hu0un false
      have hc1 := @reconcile_true_found schema remote_user hr shib_meta st u0 hfind
      refine ⟨(applyUpdates (shibUserParams schema (metaOf shib_meta)) u0 false).1,
        ?_, ?_, ?_, ?_⟩
      · rw [hc1, groupsAndArchive_users]
        exact findByUsername_after_update hn hfind hu1
      · exact applyUpdates_fields_of_mem hf u0 false
      · intro gl hgl
        refine ⟨?_, ?_, ?_⟩
        · rw [hc1]
          exact groupsAndArchive_ret_ok hgl _ _ _ _ _ _ _
        · intro g
          rw [hc1]
          exact groupsAndArchive_memberships hgl _ _ _ _ _ _ _ g
        · rw [hc1]
          exact groupsAndArchive_groups_sup hgl _ _ _ _ _ _ _
      · intro hnone
        rw [hc1, groupsAndArchive_raises hnone]
  | none =>
      have hc1 := @reconcile_true_created schema remote_user hr shib_meta st hfind
      refine ⟨StoredUser.mk st.nextPk
        (mkUserFields schema (clean_username remote_user)
          (shibUserParams schema (metaOf shib_meta))), ?_, ?_, ?_, ?_⟩
      · rw [hc1, groupsAndArchive_users]
        exact findByUsername_append_none hfind _ (lookupA_mkUserFields_username _ _ _)
      · exact mkUserFields_lookup_of_mem hun
      · intro gl hgl
        refine ⟨?_, ?_, ?_⟩
        · rw [hc1]
          exact groupsAndArchive_ret_ok hgl _ _ _ _ _ _ _
        · intro g
          rw [hc1]
          exact groupsAndArchive_memberships hgl _ _ _ _ _ _ _ g
        · rw [hc1]
          exact groupsAndArchive_groups_sup hgl _ _ _ _ _ _ _
      · intro hnone
        rw [hc1, groupsAndArchive_raises hnone]

/-- Provided no `username` parameter contradicts the canonical username, a
second identical call performs no store writes, no `save()`, and reproduces
the first call's final store and return value. -/
theorem reconcile_true_twice {schema : List String} {remote_user : String}
    {shib_meta : List (String × AttrVal)} {st : Store}
    (hr : ¬ remote_user = "")
    (hn : (st.users.map (fun u => u.pk)).Nodup)
    (hun : ∀ v, ("username", v) ∈ shibUserParams schema (metaOf shib_meta) →
        v = AttrVal.str (clean_username remote_user)) :
    (reconcile schema true remote_user shib_meta
        (reconcile schema true remote_user shib_meta st).store).writes = 0 ∧
    (reconcile schema true remote_user shib_meta
        (reconcile schema true remote_user shib_meta st).store).saves = 0 ∧
    (reconcile schema true remote_user shib_meta
        (reconcile schema true remote_user shib_meta st).store).store =
      (reconcile schema true remote_user shib_meta st).store ∧
    (reconcile schema true remote_user shib_meta
        (reconcile schema true remote_user shib_meta st).store).ret =
      (reconcile schema true remote_user shib_meta st).ret := by
  obtain ⟨u1, hfind2, hmatch, hok, hraise⟩ := reconcile_true_after hr hn hun
  have hp2 : applyUpdates (shibUserParams schema (metaOf shib_meta)) u1 false = (u1, false) :=
    applyUpdates_of_all_eq hmatch false
  have hc2 := @reconcile_true_found schema remote_user hr shib_meta
    (reconcile schema true remote_user shib_meta st).store u1 hfind2
  rw [hp2] at hc2
  have hc2' : reconcile schema true remote_user shib_meta
      (reconcile schema true remote_user shib_meta st).store =
      groupsAndArchive u1.pk (lookupA "groups" shib_meta) (metaOf shib_meta)
        (reconcile schema true remote_user shib_meta st).store 1 0 0 [] := by
    rw [hc2]
    rfl
  cases hgl : iterGroups (lookupA "groups" shib_meta) with
  | none =>
      rw [hc2', groupsAndArchive_raises hgl]
      exact ⟨rfl, rfl, rfl, (hraise hgl).symm⟩
  | some gl =>
      obtain ⟨hret1, hmem1, hgrp1⟩ := hok gl hgl
      rw [hc2', groupsAndArchive_noop hgl
        (fun g hg => ⟨hgrp1 g hg, (hmem1 g).2 hg⟩)
        (fun g hgm => (hmem1 g).1 hgm) (metaOf shib_meta) 1 0 0 []]
      exact ⟨rfl, rfl, rfl, hret1.symm⟩

/-! ### Claim theorems -/

/-- C1: for every user and every assertion whose attributes contain a
`groups` key with list `L`, reconciliation with `create_unknown_user = true`
makes the user's membership set exactly the set of names in `L`: groups held
but not in `L` are removed, groups in `L` but not held are added. -/
theorem claim_groups_full_replace (schema : List String) (remote_user : String)
    (shib_meta : List (String × AttrVal)) (st : Store) (L : List String)
    (hr : remote_user ≠ "")
    (hg : lookupA "groups" shib_meta = some (AttrVal.list L)) :
    ∃ pk, (reconcile schema true remote_user shib_meta st).ret = RetVal.user pk ∧
      ∀ g, ((pk, g) ∈ (reconcile schema true remote_user shib_meta st).store.memberships ↔
        g ∈ L) :=
  reconcile_true_groups_mem hr hg

/-- C1 witness: a user currently in groups A and B reconciled against
`groups = [B, C]` ends up in exactly B and C. -/
theorem claim_groups_full_replace_witness :
    ∃ pk, (reconcile ["username"] true "alice" [("groups", AttrVal.list ["B", "C"])]
        (Store.mk [StoredUser.mk 0 [("username", AttrVal.str "alice")]] ["A", "B"]
          [(0, "A"), (0, "B")] 1)).ret = RetVal.user pk ∧
      ∀ g, ((pk, g) ∈ (reconcile ["username"] true "alice"
          [("groups", AttrVal.list ["B", "C"])]
          (Store.mk [StoredUser.mk 0 [("username", AttrVal.str "alice")]] ["A", "B"]
            [(0, "A"), (0, "B")] 1)).store.memberships ↔ g ∈ ["B", "C"]) :=
  claim_groups_full_replace ["username"] "alice" [("groups", AttrVal.list ["B", "C"])]
    (Store.mk [StoredUser.mk 0 [("username", AttrVal.str "alice")]] ["A", "B"]
      [(0, "A"), (0, "B")] 1) ["B", "C"] (by decide) (by decide)

/-- C2 (code bug evidence): an assertion carrying no `groups` key does not
complete with the group sync skipped, as the spec describes; the code binds
`groups = None` and then runs `for g in groups:`, raising `TypeError` — after
having already created (or updated) the user row and run the post-creation
hook, and before invoking the attribute archiver. -/
theorem claim_no_groups_key_typeerror :
    (reconcile ["username", "email"] true "alice" [("email", AttrVal.str "x")]
        emptyStore).ret = RetVal.raised RecError.typeError ∧
    (reconcile ["username", "email"] true "alice" [("email", AttrVal.str "x")]
        emptyStore).store.users.length = 1 ∧
    (reconcile ["username", "email"] true "alice" [("email", AttrVal.str "x")]
        emptyStore).archived = [] := by
  exact ⟨rfl, rfl, rfl⟩

/-- C3: an assertion whose `groups` key maps to the empty list removes the
user from every group, leaving an empty membership set — unlike the
missing-key case, which raises. -/
theorem claim_empty_groups_removes_all (schema : List String) (remote_user : String)
    (shib_meta : List (String × AttrVal)) (st : Store)
    (hr : remote_user ≠ "")
    (hg : lookupA "groups" shib_meta = some (AttrVal.list [])) :
    ∃ pk, (reconcile schema true remote_user shib_meta st).ret = RetVal.user pk ∧
      ∀ g, (pk, g) ∉ (reconcile schema true remote_user shib_meta st).store.memberships := by
  obtain ⟨pk, hret, hmem⟩ := reconcile_true_groups_mem hr hg
  exact ⟨pk, hret, fun g hgm => List.not_mem_nil g ((hmem g).1 hgm)⟩

/-- C3 witness: a user in group A reconciled with `groups = []` loses all
memberships. -/
theorem claim_empty_groups_removes_all_witness :
    ∃ pk, (reconcile ["username"] true "alice" [("groups", AttrVal.list [])]
        (Store.mk [StoredUser.mk 0 [("username", AttrVal.str "alice")]] ["A"]
          [(0, "A")] 1)).ret = RetVal.user pk ∧
      ∀ g, (pk, g) ∉ (reconcile ["username"] true "alice" [("groups", AttrVal.list [])]
          (Store.mk [StoredUser.mk 0 [("username", AttrVal.str "alice")]] ["A"]
            [(0, "A")] 1)).store.memberships :=
  claim_empty_groups_removes_all ["username"] "alice" [("groups", AttrVal.list [])]
    (Store.mk [StoredUser.mk 0 [("username", AttrVal.str "alice")]] ["A"]
      [(0, "A")] 1) (by decide) (by decide)

/-- C4: for a never-seen username with `create_unknown_user = true` the call
creates exactly one user row, its fields drawn from the recognised subset of
the attributes with `username` from the cleaned remote user, passes exactly
that row to the post-creation hook, and (when the call completes) returns it;
for a pre-existing user the hook is never invoked. -/
theorem claim_create_unknown_user_hook (schema : List String) (remote_user : String)
    (shib_meta : List (String × AttrVal)) (st : Store)
    (hr : remote_user ≠ "") :
    (findByUsername (clean_username remote_user) st.users = none →
      ∃ u : StoredUser,
        (reconcile schema true remote_user shib_meta st).store.users = st.users ++ [u] ∧
        u.pk = st.nextPk ∧
        lookupA "username" u.fields = some (AttrVal.str (clean_username remote_user)) ∧
        (∀ kv ∈ shibUserParams schema (metaOf shib_meta), ¬ kv.1 = "username" →
            lookupA kv.1 u.fields = some kv.2) ∧
        (reconcile schema true remote_user shib_meta st).configured = [u.pk] ∧
        (∀ gv, lookupA "groups" shib_meta = some gv →
            (reconcile schema true remote_user shib_meta st).ret = RetVal.user u.pk)) ∧
    (∀ u0, findByUsername (clean_username remote_user) st.users = some u0 →
        (reconcile schema true remote_user shib_meta st).configured = []) := by
  constructor
  · intro hfind
    have hc1 := @reconcile_true_created schema remote_user hr shib_meta st hfind
    refine ⟨StoredUser.mk st.nextPk
      (mkUserFields schema (clean_username remote_user)
        (shibUserParams schema (metaOf shib_meta))),
      ?_, rfl, lookupA_mkUserFields_username _ _ _, ?_, ?_, ?_⟩
    · rw [hc1, groupsAndArchive_users]
    · intro kv hkv hne
      rw [lookupA_mkUserFields_ne hne (mem_shibUserParams.1 hkv).1,
        shibUserParams_lookup_of_mem hkv]
      rfl
    · rw [hc1, groupsAndArchive_configured]
    · intro gv hgv
      obtain ⟨gl, hgl⟩ := iterGroups_some gv
      rw [hc1]
      exact groupsAndArchive_ret_ok (by rw [hgv]; exact hgl) _ _ _ _ _ _ _
  · intro u0 hfind
    rw [reconcile_true_found hr hfind, groupsAndArchive_configured]

/-- C4 witness: creating `alice` in an empty store runs the hook exactly once
on the created row. -/
theorem claim_create_unknown_user_hook_witness :
    (reconcile ["username"] true "alice" [("groups", AttrVal.list [])]
        emptyStore).configured = [0] := by
  obtain ⟨u, -, hpk, -, -, hconf, -⟩ :=
    (claim_create_unknown_user_hook ["username"] "alice" [("groups", AttrVal.list [])]
      emptyStore (by decide)).1 rfl
  rw [hconf, hpk]
  rfl

/-- C5: for a pre-existing user, the recognised fields are compared against
the stored values; `save()` is called exactly once when some field differs
and never when all agree, and afterwards every row with that user's pk
carries the asserted values of all recognised fields. -/
theorem claim_update_existing_single_save (schema : List String) (remote_user : String)
    (shib_meta : List (String × AttrVal)) (st : Store) (u0 : StoredUser)
    (hr : remote_user ≠ "")
    (hn : (st.users.map (fun u => u.pk)).Nodup)
    (hfind : findByUsername (clean_username remote_user) st.users = some u0) :
    ((∀ kv ∈ shibUserParams schema (metaOf shib_meta),
        lookupA kv.1 u0.fields = some kv.2) →
      (reconcile schema true remote_user shib_meta st).saves = 0) ∧
    (¬ (∀ kv ∈ shibUserParams schema (metaOf shib_meta),
        lookupA kv.1 u0.fields = some kv.2) →
      (reconcile schema true remote_user shib_meta st).saves = 1) ∧
    (∀ w ∈ (reconcile schema true remote_user shib_meta st).store.users, w.pk = u0.pk →
      ∀ kv ∈ shibUserParams schema (metaOf shib_meta),
        lookupA kv.1 w.fields = some kv.2) := by
  have hc1 := @reconcile_true_found schema remote_user hr shib_meta st u0 hfind
  have hf := functional_shibUserParams schema (metaOf shib_meta)
  refine ⟨?_, ?_, ?_⟩
  · intro hall
    rw [hc1, groupsAndArchive_saves, applyUpdates_of_all_eq hall false]
    rfl
  · intro hnall
    rw [hc1, groupsAndArchive_saves]
    rcases Bool.eq_false_or_eq_true
        (applyUpdates (shibUserParams schema (metaOf shib_meta)) u0 false).2 with h2 | h2
    · rw [if_pos h2]
    · exact absurd (applyUpdates_snd_false h2) hnall
  · intro w hw hpk kv hkv
    rw [hc1, groupsAndArchive_users] at hw
    rcases Bool.eq_false_or_eq_true
        (applyUpdates (shibUserParams schema (metaOf shib_meta)) u0 false).2 with h2 | h2
    · rw [if_pos h2] at hw
      simp only [saveUser] at hw
      obtain ⟨w', hw', heq⟩ := List.mem_map.1 hw
      by_cases hpkeq : w'.pk =
          (applyUpdates (shibUserParams schema (metaOf shib_meta)) u0 false).1.pk
      · rw [if_pos hpkeq] at heq
        rw [heq.symm]
        exact applyUpdates_fields_of_mem hf u0 false kv hkv
      · rw [if_neg hpkeq] at heq
        rw [heq.symm] at hpk
        exact absurd (hpk.trans (applyUpdates_pk _ u0 false).symm) hpkeq
    · have hcond : ¬ ((applyUpdates (shibUserParams schema (metaOf shib_meta)) u0 false).2
          = true) := by
        rw [h2]
        decide
      rw [if_neg hcond] at hw
      have hweq : w = u0 := nodup_pk_eq hn hw (findByUsername_mem hfind).1 hpk
      rw [hweq]
      exact applyUpdates_snd_false h2 kv hkv

/-- C5 witness: a stored `alice` with a stale email is updated with exactly
one `save()`. -/
theorem claim_update_existing_single_save_witness :
    (reconcile ["username", "email"] true "alice"
        [("email", AttrVal.str "y"), ("groups", AttrVal.list [])]
        (Store.mk [StoredUser.mk 0
          [("username", AttrVal.str "alice"), ("email", AttrVal.str "x")]] [] [] 1)).saves
      = 1 :=
  (claim_update_existing_single_save ["username", "email"] "alice"
    [("email", AttrVal.str "y"), ("groups", AttrVal.list [])]
    (Store.mk [StoredUser.mk 0
      [("username", AttrVal.str "alice"), ("email", AttrVal.str "x")]] [] [] 1)
    (StoredUser.mk 0 [("username", AttrVal.str "alice"), ("email", AttrVal.str "x")])
    (by decide) (by decide) (by decide)).2.1 (by decide)

/-- C6 counterexample: with an attribute-supplied `username` differing from
the remote username, the second of two identical calls performs a store write
(it rewrites the `username` field the first call's creation had set from the
lookup key) and changes the store, so the claim's unqualified idempotence
fails. -/
theorem claim_idempotence_counterexample :
    (reconcile ["username"] true "alice"
        [("username", AttrVal.str "bob"), ("groups", AttrVal.list [])]
        (reconcile ["username"] true "alice"
          [("username", AttrVal.str "bob"), ("groups", AttrVal.list [])]
          emptyStore).store).writes = 1 ∧
    (reconcile ["username"] true "alice"
        [("username", AttrVal.str "bob"), ("groups", AttrVal.list [])]
        (reconcile ["username"] true "alice"
          [("username", AttrVal.str "bob"), ("groups", AttrVal.list [])]
          emptyStore).store).store ≠
      (reconcile ["username"] true "alice"
        [("username", AttrVal.str "bob"), ("groups", AttrVal.list [])]
        emptyStore).store := by
  exact ⟨rfl, by decide⟩

/-- C6 (amended): calling reconcile twice in sequence with an identical
assertion performs no additional store writes on the second call and leaves
the final store and return value identical — provided the assertion's
attributes carry no `username` entry differing from the cleaned remote
username (such an entry makes the second call rewrite the stored username and
break idempotence, as the counterexample shows). -/
theorem claim_idempotence_amended (schema : List String) (remote_user : String)
    (shib_meta : List (String × AttrVal)) (st : Store)
    (hr : remote_user ≠ "")
    (hn : (st.users.map (fun u => u.pk)).Nodup)
    (hun : lookupA "username" shib_meta = none ∨
        lookupA "username" shib_meta = some (AttrVal.str (clean_username remote_user))) :
    (reconcile schema true remote_user shib_meta
        (reconcile schema true remote_user shib_meta st).store).writes = 0 ∧
    (reconcile schema true remote_user shib_meta
        (reconcile schema true remote_user shib_meta st).store).saves = 0 ∧
    (reconcile schema true remote_user shib_meta
        (reconcile schema true remote_user shib_meta st).store).store =
      (reconcile schema true remote_user shib_meta st).store ∧
    (reconcile schema true remote_user shib_meta
        (reconcile schema true remote_user shib_meta st).store).ret =
      (reconcile schema true remote_user shib_meta st).ret := by
  apply reconcile_true_twice hr hn
  intro v hv
  obtain ⟨-, hlook⟩ := mem_shibUserParams.1 hv
  rw [lookupA_metaOf_ne (by decide)] at hlook
  rcases hun with h | h
  · rw [h] at hlook
    cases hlook
  · rw [h] at hlook
    exact (Option.some.inj hlook).symm

/-- C6 witness: reconciling `alice` with `groups = [G]` twice from the empty
store performs no write on the second call. -/
theorem claim_idempotence_amended_witness :
    (reconcile ["username"] true "alice" [("groups", AttrVal.list ["G"])]
        (reconcile ["username"] true "alice" [("groups", AttrVal.list ["G"])]
          emptyStore).store).writes = 0 :=
  (claim_idempotence_amended ["username"] "alice" [("groups", AttrVal.list ["G"])]
    emptyStore (by decide) (by decide) (Or.inl rfl)).1

/-- C7: with `create_unknown_user = false` the call performs a single
equality lookup over all recognised fields simultaneously; no match yields
`absent` with the store untouched and zero writes (not-found is converted,
not propagated), and a unique match yields that user, also without
mutation. -/
theorem claim_nocreate_lookup (schema : List String) (remote_user : String)
    (shib_meta : List (String × AttrVal)) (st : Store)
    (hr : remote_user ≠ "") :
    (usersMatching (shibUserParams schema (metaOf shib_meta)) st.users = [] →
        reconcile schema false remote_user shib_meta st =
          { ret := RetVal.absent, store := st, reads := 1, writes := 0, saves := 0,
            configured := [], archived := [], finalMeta := metaOf shib_meta }) ∧
    (∀ u, usersMatching (shibUserParams schema (metaOf shib_meta)) st.users = [u] →
        reconcile schema false remote_user shib_meta st =
          { ret := RetVal.user u.pk, store := st, reads := 1, writes := 0, saves := 0,
            configured := [], archived := [], finalMeta := metaOf shib_meta }) := by
  constructor
  · intro hm
    rw [reconcile_false_eq hr, hm]
  · intro u hm
    rw [reconcile_false_eq hr, hm]

/-- C7 witness: an unknown `alice` with creation disabled yields `absent` and
an unchanged empty store. -/
theorem claim_nocreate_lookup_witness :
    reconcile ["username"] false "alice" [] emptyStore =
      { ret := RetVal.absent, store := emptyStore, reads := 1, writes := 0, saves := 0,
        configured := [], archived := [], finalMeta := metaOf [] } :=
  (claim_nocreate_lookup ["username"] "alice" [] emptyStore (by decide)).1 rfl

/-- C8: an empty (falsy) username returns `absent` immediately: no store
reads, no writes, no `save()`, no hook, no archiver call, and the attribute
mapping untouched — whatever the attributes and the `create_unknown_user`
setting. -/
theorem claim_empty_username_noop (schema : List String) (create_unknown_user : Bool)
    (shib_meta : List (String × AttrVal)) (st : Store) :
    reconcile schema create_unknown_user "" shib_meta st =
      { ret := RetVal.absent, store := st, reads := 0, writes := 0, saves := 0,
        configured := [], archived := [], finalMeta := shib_meta } :=
  reconcile_empty schema create_unknown_user shib_meta st

/-- C9: when the attributes contain a `groups` key (and creation is enabled),
the key is deleted in place from the caller's mapping, every other key is
left untouched, and the attribute archiver is invoked exactly once with the
mapping lacking the `groups` key. -/
theorem claim_groups_key_removed_archiver (schema : List String) (remote_user : String)
    (shib_meta : List (String × AttrVal)) (st : Store) (gv : AttrVal)
    (hr : remote_user ≠ "")
    (hg : lookupA "groups" shib_meta = some gv) :
    (reconcile schema true remote_user shib_meta st).finalMeta =
        eraseA "groups" shib_meta ∧
    lookupA "groups" (reconcile schema true remote_user shib_meta st).finalMeta = none ∧
    (∀ k, ¬ k = "groups" →
        lookupA k (reconcile schema true remote_user shib_meta st).finalMeta =
          lookupA k shib_meta) ∧
    ∃ pk, (reconcile schema true remote_user shib_meta st).archived =
        [(pk, eraseA "groups" shib_meta)] := by
  obtain ⟨gl, hgl⟩ := iterGroups_some gv
  have hiter : iterGroups (lookupA "groups" shib_meta) = some gl := by
    rw [hg]
    exact hgl
  have hfm : (reconcile schema true remote_user shib_meta st).finalMeta =
      metaOf shib_meta := by
    cases hfind : findByUsername (clean_username remote_user) st.users with
    | some u0 => rw [reconcile_true_found hr hfind, groupsAndArchive_finalMeta]
    | none => rw [reconcile_true_created hr hfind, groupsAndArchive_finalMeta]
  refine ⟨?_, ?_, ?_, ?_⟩
  · rw [hfm, metaOf_eq_eraseA]
  · rw [hfm, metaOf_eq_eraseA]
    exact lookupA_eraseA_self _ _
  · intro k hk
    rw [hfm]
    exact lookupA_metaOf_ne hk _
  · cases hfind : findByUsername (clean_username remote_user) st.users with
    | some u0 =>
        refine ⟨(applyUpdates (shibUserParams schema (metaOf shib_meta)) u0 false).1.pk, ?_⟩
        rw [reconcile_true_found hr hfind, groupsAndArchive_archived_ok hiter,
          metaOf_eq_eraseA]
    | none =>
        refine ⟨st.nextPk, ?_⟩
        rw [reconcile_true_created hr hfind, groupsAndArchive_archived_ok hiter,
          metaOf_eq_eraseA]

/-- C9 witness: the archived mapping for a concrete assertion has lost its
`groups` key and kept the `email` key. -/
theorem claim_groups_key_removed_archiver_witness :
    (reconcile ["username"] true "alice"
        [("groups", AttrVal.list ["G"]), ("email", AttrVal.str "x")]
        emptyStore).finalMeta = [("email", AttrVal.str "x")] := by
  rw [(claim_groups_key_removed_archiver ["username"] "alice"
    [("groups", AttrVal.list ["G"]), ("email", AttrVal.str "x")] emptyStore
    (AttrVal.list ["G"]) (by decide) (by decide)).1]
  rfl

/-- C10: with creation disabled the lookup filters only by the recognised
fields present in the attributes, never by the cleaned username: a store
whose only user is `bob` (matching on `email`) is returned for asserted
remote user `alice`, whose username matches no stored user. -/
theorem claim_lookup_not_by_username :
    (reconcile ["username", "email"] false "alice" [("email", AttrVal.str "x")]
        (Store.mk [StoredUser.mk 0
          [("username", AttrVal.str "bob"), ("email", AttrVal.str "x")]] [] [] 1)).ret
      = RetVal.user 0 ∧
    lookupA "username"
        [("username", AttrVal.str "bob"), ("email", AttrVal.str "x")]
      = some (AttrVal.str "bob") ∧
    AttrVal.str "bob" ≠ AttrVal.str "alice" ∧
    findByUsername (clean_username "alice")
        [StoredUser.mk 0 [("username", AttrVal.str "bob"), ("email", AttrVal.str "x")]]
      = none := by
  refine ⟨rfl, rfl, by decide, rfl⟩

end Shib
